import Mathlib

/-!
Verification of the MCTS engine in
`agentq/core/mcts/core/mcts.py` (classes `MCTSNode`, `MCTSAggregation`, `MCTS`).

Shallow embedding conventions:
* Python floats are modelled as `ℚ` (for stored rewards / Q-values) and as `ℝ`
  where transcendental functions (`math.log`, `math.sqrt`) appear.
* `-math.inf` sentinel values are modelled with `WithBot ℚ` (`⊥` is `-inf`).
* Fallible operations (division by zero, iterating over `None`, `math.log 0`)
  are modelled with `Option`: `none` is a raised exception.
* `MCTSNode` is an inductive tree; the mutable `_Q` field is `storedQ`, and the
  `Q` property getter (which reads 0 when `N = 0`) is `Node.Q`.
-/

/-- A node of the MCTS search tree (`MCTSNode` in the source).  The fields are,
in order: `state` (`none` is Python `None`, i.e. unresolved), `reward`,
`is_terminal`, `N` (visit count), `storedQ` (the raw `_Q` attribute),
`depth`, and `children` (`none` is the uninitialized `None`). -/
inductive Node (σ : Type) : Type where
  | mk (state : Option σ) (reward : ℚ) (is_terminal : Bool) (N : ℕ)
       (storedQ : ℚ) (depth : ℕ) (children : Option (List (Node σ))) : Node σ

namespace Node

variable {σ : Type}

def state : Node σ → Option σ
  | .mk s _ _ _ _ _ _ => s

def reward : Node σ → ℚ
  | .mk _ r _ _ _ _ _ => r

def is_terminal : Node σ → Bool
  | .mk _ _ t _ _ _ _ => t

def N : Node σ → ℕ
  | .mk _ _ _ n _ _ _ => n

def storedQ : Node σ → ℚ
  | .mk _ _ _ _ q _ _ => q

def depth : Node σ → ℕ
  | .mk _ _ _ _ _ d _ => d

def children : Node σ → Option (List (Node σ))
  | .mk _ _ _ _ _ _ cs => cs

/-- The `Q` property getter of `MCTSNode`: reads 0 when `N = 0`, otherwise
the stored `_Q`. -/
def Q (n : Node σ) : ℚ :=
  if n.N = 0 then 0 else n.storedQ

end Node

/-- Python's `max(x :: l, key)` : folds over the list keeping the current
best, replacing it only on a strictly larger key, so ties keep the earliest
element. -/
def pymax {α β : Type} [LinearOrder β] (key : α → β) (a : α) (l : List α) : α :=
  l.foldl (fun best y => if key best < key y then y else best) a

theorem pymax_cons {α β : Type} [LinearOrder β] (key : α → β) (a b : α) (l : List α) :
    pymax key a (b :: l) = pymax key (if key a < key b then b else a) l := by
  simp only [pymax, List.foldl_cons]

theorem pymax_mem {α β : Type} [LinearOrder β] (key : α → β) (a : α) (l : List α) :
    pymax key a l ∈ a :: l := by
  induction l generalizing a with
  | nil => simp [pymax]
  | cons b l ih =>
    rw [pymax_cons]
    by_cases h : key a < key b
    · simp only [if_pos h]
      exact List.mem_cons_of_mem a (ih b)
    · simp only [if_neg h]
      rcases List.mem_cons.mp (ih a) with h1 | h1
      · rw [h1]; simp
      · simp [h1]

theorem pymax_ge {α β : Type} [LinearOrder β] (key : α → β) (a : α) (l : List α) :
    ∀ x ∈ a :: l, key x ≤ key (pymax key a l) := by
  induction l generalizing a with
  | nil => intro x hx; simp at hx; rw [hx]; simp [pymax]
  | cons b l ih =>
    intro x hx
    rw [pymax_cons]
    have hstart : ∀ y : α, key y ≤ key (pymax key y l) := fun y => ih y y (by simp)
    by_cases h : key a < key b
    · simp only [if_pos h]
      rcases List.mem_cons.mp hx with h1 | h1
      · rw [h1]; exact le_trans (le_of_lt h) (hstart b)
      · rcases List.mem_cons.mp h1 with h2 | h2
        · rw [h2]; exact hstart b
        · exact ih b x (by simp [h2])
    · simp only [if_neg h]
      rcases List.mem_cons.mp hx with h1 | h1
      · rw [h1]; exact hstart a
      · rcases List.mem_cons.mp h1 with h2 | h2
        · rw [h2]; exact le_trans (le_of_not_lt h) (hstart a)
        · exact ih a x (by simp [h2])

/-! ## Back-propagation (`MCTS._back_propagate`) -/

/-- The loop body of `_back_propagate` applied to one node of the path:
`node.Q = (node.Q * node.N + reward) / (node.N + 1); node.N += 1`.
The `Q` read goes through the property getter. -/
def bpUpd {σ : Type} (r : ℚ) (n : Node σ) : Node σ :=
  Node.mk n.state n.reward n.is_terminal (n.N + 1)
    ((n.Q * n.N + r) / (n.N + 1)) n.depth n.children

/-- `MCTS._back_propagate(path)`: reads `reward = path[-1].reward`, applies
the incremental-mean update to every node of the path (the nodes of a
root-to-leaf path are pairwise distinct, so the reversed in-place loop is the
same as an elementwise map), and returns `path[0].Q`, the root's updated
Q-value.  `none` models the `IndexError` on an empty path. -/
def back_propagate {σ : Type} (path : List (Node σ)) : Option (List (Node σ) × ℚ) :=
  match path with
  | [] => none
  | a :: rest =>
    let r := (rest.getLastD a).reward
    some ((a :: rest).map (bpUpd r), (bpUpd r a).Q)

/-- Arithmetic mean of a list of rationals (`0` for the empty list,
matching the `Q` getter's `0` default at `N = 0`). -/
def qmean (l : List ℚ) : ℚ := l.sum / l.length

/-! ## UCT selection (`MCTS._uct` and `MCTS._uct_select`) -/

/-- `MCTS._uct(node)` as a real number:
`node.Q + w_exp * sqrt(log(node.parent.N) / (1 + node.N))`.
This is the value `math.sqrt`/`math.log` compute on the defined domain;
the `math.log(0)` domain error is modelled separately by `uctE`. -/
noncomputable def uctR {σ : Type} (w : ℝ) (parentN : ℕ) (c : Node σ) : ℝ :=
  (c.Q : ℝ) + w * Real.sqrt (Real.log parentN / (1 + (c.N : ℝ)))

/-- `MCTS._uct(node)` with the `math.log` domain error made explicit:
Python's `math.log(0)` raises `ValueError`, modelled as `none`
(`parentN` is a visit count, so negative arguments cannot occur). -/
noncomputable def uctE {σ : Type} (w : ℝ) (parentN : ℕ) (c : Node σ) : Option ℝ :=
  if parentN = 0 then none else some (uctR w parentN c)

/-- `MCTS._uct_select(node)`: scan `node.children` in order and return the
first child with `N == 0`; otherwise `max(node.children, key=self._uct)`.
`none` models the exceptions: iterating over uninitialized (`None`) children,
`max` over an empty list, and the `math.log(0)` domain error when the parent
is unvisited.  The `uct_with_fast_reward` flag is an (unused) parameter of
the engine configuration, as in the source, which never consults it here. -/
noncomputable def uct_select {σ : Type} (w : ℝ) (uct_with_fast_reward : Bool)
    (p : Node σ) : Option (Node σ) :=
  match p.children with
  | none => none
  | some cs =>
    match cs.find? (fun c => c.N == 0) with
    | some c => some c
    | none =>
      match cs with
      | [] => none
      | c :: rest => if p.N = 0 then none else some (pymax (uctR w p.N) c rest)

/-! ## Per-iteration output recording (`MCTS.iterate`, lines 234-246) -/

/-- One iteration's observable outcome: the selected-and-simulated `path`
and the value `q` returned by `_back_propagate(path)` for it. -/
structure IterOutcome (σ : Type) where
  path : List (Node σ)
  q : ℚ

/-- Whether a path ends in a terminal node (`path[-1].is_terminal`);
`false` on the empty list (unreachable: `_select` always returns a
non-empty path). -/
def endsTerminal {σ : Type} (path : List (Node σ)) : Bool :=
  match path.getLast? with
  | some n => n.is_terminal
  | none => false

/-- The three sequential `if` statements at the end of `MCTS.iterate` that
maintain `(_output_iter, _output_cum_reward)`.  The accumulator's second
component is `WithBot ℚ`, with `⊥` the initial `-math.inf`. -/
def record_iter {σ : Type} (strategy : String)
    (acc : Option (List (Node σ)) × WithBot ℚ) (it : IterOutcome σ) :
    Option (List (Node σ)) × WithBot ℚ :=
  let a1 := if strategy = "max_iter" ∧ endsTerminal it.path = true ∧ acc.2 < (it.q : WithBot ℚ)
    then (some it.path, (it.q : WithBot ℚ)) else acc
  let a2 := if strategy = "last_iter" then (some it.path, (it.q : WithBot ℚ)) else a1
  if strategy = "last_terminal_iter" ∧ endsTerminal it.path = true
    then (some it.path, (it.q : WithBot ℚ)) else a2

/-- The iteration loop of `MCTS.search` as it affects
`(_output_iter, _output_cum_reward)`: a fold of `record_iter` over the
successive iteration outcomes, starting from `(None, -inf)`. -/
def run_iters {σ : Type} (strategy : String) (its : List (IterOutcome σ)) :
    Option (List (Node σ)) × WithBot ℚ :=
  its.foldl (record_iter strategy) (none, ⊥)

/-! ## Output strategies applied after the iteration loop
(`MCTS._dfs_max_reward` and `MCTS.search`, lines 410-429) -/

theorem Node.sizeOf_mem_children {σ : Type} {n : Node σ} {cs : List (Node σ)}
    {c : Node σ} (h1 : n.children = some cs) (h2 : c ∈ cs) : sizeOf c < sizeOf n := by
  cases n with
  | mk s r t nn q d cc =>
    simp only [Node.children] at h1
    subst h1
    have hlt := List.sizeOf_lt_of_mem h2
    simp only [Node.mk.sizeOf_spec, Option.some.sizeOf_spec]
    omega

/-- `MCTS._dfs_max_reward(path)` with the source's `path` split as
`front ++ [cur]` (`cur = path[-1]`).  Returns the pair
`(value, path)`; the value is `WithBot ℚ` with `⊥` for `-math.inf`.
The recursion maximizes, in child order and keeping the first of equal
values like Python's `max(..., key=lambda x: x[0])`, over the visited
children (`x.state is not None`). -/
def dfs_max_reward {σ : Type} (cum : List ℚ → ℚ) (front : List (Node σ))
    (cur : Node σ) : WithBot ℚ × List (Node σ) :=
  if cur.is_terminal then
    (((cum (((front ++ [cur]).drop 1).map Node.reward)) : ℚ), front ++ [cur])
  else
    match h : cur.children with
    | none => (⊥, front ++ [cur])
    | some cs =>
      match hv : cs.filter (fun c => c.state.isSome) with
      | [] => (⊥, front ++ [cur])
      | v :: vs =>
        vs.attach.foldl
          (fun best c =>
            let r2 := dfs_max_reward cum (front ++ [cur]) c.1
            if best.1 < r2.1 then r2 else best)
          (dfs_max_reward cum (front ++ [cur]) v)
termination_by sizeOf cur
decreasing_by
  · have hmem : c.1 ∈ cs := by
      have : c.1 ∈ cs.filter (fun c => c.state.isSome) := by
        rw [hv]; exact List.mem_cons_of_mem v c.2
      exact List.mem_of_mem_filter this
    exact Node.sizeOf_mem_children h hmem
  · have hmem : v ∈ cs := by
      have : v ∈ cs.filter (fun c => c.state.isSome) := by rw [hv]; simp
      exact List.mem_of_mem_filter this
    exact Node.sizeOf_mem_children h hmem

/-- The `follow_max` greedy descent of `MCTS.search` (lines 411-420):
append the current node; stop on a terminal; otherwise move to the
visited child of maximum `reward` (first of equal rewards, like Python's
`max`), stopping when there is none.  `none` models the `TypeError` of
iterating `cur.children` when they are uninitialized (`None`). -/
def followMaxPath {σ : Type} (cur : Node σ) : Option (List (Node σ)) :=
  if cur.is_terminal then some [cur]
  else
    match h : cur.children with
    | none => none
    | some cs =>
      match hv : cs.filter (fun c => c.state.isSome) with
      | [] => some [cur]
      | v :: vs => (followMaxPath (pymax Node.reward v vs)).map (fun p => cur :: p)
termination_by sizeOf cur
decreasing_by
  have hmem : pymax Node.reward v vs ∈ cs := by
    have h1 : pymax Node.reward v vs ∈ v :: vs := pymax_mem Node.reward v vs
    have : pymax Node.reward v vs ∈ cs.filter (fun c => c.state.isSome) := by
      rw [hv]; exact h1
    exact List.mem_of_mem_filter this
  exact Node.sizeOf_mem_children h hmem

/-- Python's `l[1::-1]`: the first two elements, reversed. -/
def slice1rev {α : Type} (l : List α) : List α := (l.take 2).reverse

/-- The output-strategy dispatch after the iteration loop
(`MCTS.search`, lines 410-429).  `streamed` is the
`(_output_iter, _output_cum_reward)` pair left by the per-iteration
recording; strategies other than `follow_max` and `max_reward` keep it
unchanged.  The outer `none` models an exception escaping `search`
(only possible in the `follow_max` branch). -/
def search_finalize {σ : Type} (strategy : String) (cum : List ℚ → ℚ)
    (root : Node σ) (streamed : Option (List (Node σ)) × WithBot ℚ) :
    Option (Option (List (Node σ)) × WithBot ℚ) :=
  let s1 := if strategy = "follow_max" then
      (followMaxPath root).map
        (fun p => (some p, ((cum ((slice1rev p).map Node.reward) : ℚ) : WithBot ℚ)))
    else some streamed
  if strategy = "max_reward" then
    let vp := dfs_max_reward cum [] root
    some (if vp.1 = ⊥ then (none, ⊥) else (some vp.2, vp.1))
  else s1

/-- The projection of `_output_iter` to the result's `terminal_state`
(`MCTS.__call__`, lines 444-447): absent iff the output path is absent,
otherwise the state of the path's last node. -/
def result_terminal_state {σ : Type} (out : Option (List (Node σ))) : Option (Option σ) :=
  out.map (fun l => (l.getLast?.map Node.state).getD none)

/-- The projection of `_output_iter` to the result's `trace`
(`MCTS.__call__`, lines 444-451), restricted to its state sequence:
absent iff the output path is absent. -/
def result_trace {σ : Type} (out : Option (List (Node σ))) : Option (List (Option σ)) :=
  out.map (fun l => l.map Node.state)

/-! ## Engine construction (`MCTS.__init__`, `MCTSAggregation.__init__`) -/

/-- Resolution of the `simulate_strategy` argument.  The source keeps a dict
of the three named strategies and falls back, via `dict.get(s, s)`, to the
*argument itself* when the name is unknown; `customStr s` records that the
raw string was stored as the choice function. -/
inductive SimChoice where
  | argmaxChoice : SimChoice
  | sampleChoice : SimChoice
  | randomChoice : SimChoice
  | customStr : String → SimChoice
deriving DecidableEq

/-- `default_simulate_strategies.get(simulate_strategy, simulate_strategy)`. -/
def resolveSimulateStrategy (s : String) : SimChoice :=
  if s = "max" then .argmaxChoice
  else if s = "sample" then .sampleChoice
  else if s = "random" then .randomChoice
  else .customStr s

/-- The list in the `assert output_strategy in [...]` of `MCTS.__init__`. -/
def validOutputStrategies : List String :=
  ["max_reward", "follow_max", "max_visit", "max_iter", "last_iter", "last_terminal_iter"]

/-- The configuration state `MCTS.__init__` stores (restricted to the two
validated/resolved options). -/
structure MCTSConfig where
  simulate_choice : SimChoice
  output_strategy : String
deriving DecidableEq

/-- `MCTS.__init__` restricted to its validation behaviour: the `assert` on
`output_strategy` is the only check that can fail (`none` models the
`AssertionError`); `simulate_strategy` is resolved with a fallback and can
never fail here. -/
def mctsInit (simulate_strategy : String) (output_strategy : String) : Option MCTSConfig :=
  if output_strategy ∈ validOutputStrategies then
    some ⟨resolveSimulateStrategy simulate_strategy, output_strategy⟩
  else none

/-- The list in the `assert weight_policy in [...]` of
`MCTSAggregation.__init__`. -/
def validWeightPolicies : List String := ["edge", "edge_inverse_depth", "uniform"]

/-- `MCTSAggregation.__init__` restricted to its validation behaviour:
`none` models the `AssertionError` on an unknown `weight_policy`. -/
def aggregationInit (weight_policy : String) : Option String :=
  if weight_policy ∈ validWeightPolicies then some weight_policy else none

/-! ## Per-iteration trace accumulation
(`MCTS.search` lines 396-408, `MCTS.__call__` lines 453-457) -/

/-- `trace_in_each_iter` as `MCTS.search` leaves it: when the flag is set an
empty list is allocated before the loop, and the loop body's append is
commented out in the source, so the fold over the iterations' paths adds
nothing; when the flag is unset the attribute stays `None`. -/
def searchTraceInEachIter {σ : Type} (output_trace_in_each_iter : Bool)
    (iterPaths : List (List (Node σ))) : Option (List (List (Node σ))) :=
  if output_trace_in_each_iter then
    some (iterPaths.foldl (fun acc _ => acc) ([] : List (List (Node σ))))
  else none

/-- The pair `(trace_in_each_iter, tree_state_after_each_iter)` that
`MCTS.__call__` puts in the result:  when the flag is set,
`tree_state_after_each_iter = [trace[0] for trace in trace_in_each_iter]`
(each entry's head); otherwise both are `None`. -/
def mkTraceOutputs {σ : Type} (output_trace_in_each_iter : Bool)
    (iterPaths : List (List (Node σ))) :
    Option (List (List (Node σ))) × Option (List (Option (Node σ))) :=
  match searchTraceInEachIter output_trace_in_each_iter iterPaths with
  | some t => (some t, some (t.map List.head?))
  | none => (none, none)

/-! ## Aggregation (`MCTSAggregation.__call__`) -/

/-- Python float/int division, raising `ZeroDivisionError` on a zero
denominator (modelled as `none`). -/
def pydiv (x : ℚ) (y : ℚ) : Option ℚ := if y = 0 then none else some (x / y)

/-- An insertion-ordered model of the `defaultdict(lambda: 0)` used as
`answer_dict`: an association list from answers to accumulated credit. -/
abbrev Dict (α : Type) : Type := List (α × ℚ)

theorem Node.sizeOf_children_lt {σ : Type} {n : Node σ} {cs : List (Node σ)}
    (h : n.children = some cs) : sizeOf cs < sizeOf n := by
  cases n with
  | mk s r t nn q d cc =>
    simp only [Node.children] at h
    subst h
    simp only [Node.mk.sizeOf_spec, Option.some.sizeOf_spec]
    omega

/-- `answer_dict[a] += v` on the insertion-ordered dictionary. -/
def dictAdd {α : Type} [DecidableEq α] (d : Dict α) (a : α) (v : ℚ) : Dict α :=
  if d.any (fun p => p.1 = a) then
    d.map (fun p => if p.1 = a then (p.1, p.2 + v) else p)
  else d ++ [(a, v)]

/-- Lookup with the `defaultdict` default 0. -/
def dictGet {α : Type} [DecidableEq α] (d : Dict α) (a : α) : ℚ :=
  ((d.find? (fun p => decide (p.1 = a))).map Prod.snd).getD 0

/-- `depth_list[answer].append(depth)` on the insertion-ordered
`defaultdict(list)`. -/
def depthListAdd {α : Type} [DecidableEq α] (dl : List (α × List ℕ)) (a : α) (n : ℕ) :
    List (α × List ℕ) :=
  if dl.any (fun p => p.1 = a) then
    dl.map (fun p => if p.1 = a then (p.1, p.2 ++ [n]) else p)
  else dl ++ [(a, [n])]

/-- The `depth_list` built by the loop
`for answer, depth in child_info: depth_list[answer].append(depth)`
over the concatenated child infos. -/
def buildDepthList {α : Type} [DecidableEq α] (info : List (α × ℕ)) :
    List (α × List ℕ) :=
  info.foldl (fun acc p => depthListAdd acc p.1 p.2) []

/-- `np.mean` of a list of depths, as a rational (the loop only builds
non-empty depth lists, so the empty case is unreachable). -/
def qmeanN (l : List ℕ) : ℚ := ((l.map (fun n => (n : ℚ))).sum) / (l.length : ℚ)

/-- The post-loop credit assignment of `visit` for an internal node
(lines 136-140): for each distinct answer in `depth_list`, add
`cur.reward` (`edge`) or `cur.reward / np.mean(depths)`
(`edge_inverse_depth`); `uniform` adds nothing here.  The `np.mean`
division involves a numpy float and does not raise, so plain `ℚ`
division is used. -/
def internalCredit {α : Type} [DecidableEq α] (wp : String) (rew : ℚ)
    (dl : List (α × List ℕ)) (d : Dict α) : Dict α :=
  dl.foldl (fun acc p =>
    if wp = "edge" then dictAdd acc p.1 rew
    else if wp = "edge_inverse_depth" then dictAdd acc p.1 (rew / qmeanN p.2)
    else acc) d

mutual

/-- The recursive `visit(cur)` of `MCTSAggregation.__call__`, threading the
mutable `answer_dict` explicitly and returning the node's
`[(answer, depth)]` info list.  `none` models an uncaught exception:
the `ZeroDivisionError` of `cur.reward / cur.depth` at depth 0 under
`edge_inverse_depth`, or iterating uninitialized children. -/
def visit {σ α : Type} [DecidableEq α] (wp : String) (ret : σ → Option α)
    (d : Dict α) (cur : Node σ) : Option (List (α × ℕ) × Dict α) :=
  match cur.state with
  | none => some ([], d)
  | some st =>
    if cur.is_terminal then
      match ret st with
      | none => some ([], d)
      | some ans =>
        if wp = "edge" then some ([(ans, cur.depth)], dictAdd d ans cur.reward)
        else if wp = "edge_inverse_depth" then
          (pydiv cur.reward (cur.depth : ℚ)).map
            (fun v => ([(ans, cur.depth)], dictAdd d ans v))
        else if wp = "uniform" then some ([(ans, cur.depth)], dictAdd d ans 1)
        else some ([(ans, cur.depth)], d)
    else
      match h : cur.children with
      | none => none
      | some cs =>
        (visitList wp ret d cs).map
          (fun r => (r.1, internalCredit wp cur.reward (buildDepthList r.1) r.2))
termination_by sizeOf cur
decreasing_by
  exact Node.sizeOf_children_lt h

/-- The `for child in cur.children` loop of `visit`: visits the children in
order, threading the dictionary and concatenating the child infos
(`cur_list.extend(child_info)`). -/
def visitList {σ α : Type} [DecidableEq α] (wp : String) (ret : σ → Option α)
    (d : Dict α) : List (Node σ) → Option (List (α × ℕ) × Dict α)
  | [] => some ([], d)
  | c :: cs =>
    (visit wp ret d c).bind
      (fun r1 => (visitList wp ret r1.2 cs).map (fun r2 => (r1.1 ++ r2.1, r2.2)))
termination_by l => sizeOf l
decreasing_by
  · simp only [List.cons.sizeOf_spec]; omega
  · simp only [List.cons.sizeOf_spec]; omega

end

/-- `MCTSAggregation.__call__(tree_state)`: run `visit` from the root on an
empty dictionary, then `max(answer_dict, key=answer_dict.get)` over the
keys in insertion order (first of equal credits), or an absent answer on an
empty dictionary.  The outer `none` models a raised exception. -/
def MCTSAggregation_call {σ α : Type} [DecidableEq α] (wp : String)
    (ret : σ → Option α) (root : Node σ) : Option (Option α) :=
  (visit wp ret [] root).map (fun r =>
    match r.2 with
    | [] => none
    | p :: rest => some (pymax (fun a => dictGet (p :: rest) a) p.1 (rest.map Prod.fst)))

/-! ## Tree dynamics: the effect of `iterate` on the stored tree
(back-propagation and expansion as whole-tree transformations),
used to establish the reachability invariant behind `_uct`'s
`math.log` domain safety. -/

/-- Replace the `i`-th element of a list by `f` of it (out-of-range
indices leave the list unchanged). -/
def modifyIdx {α : Type} : List α → ℕ → (α → α) → List α
  | [], _, _ => []
  | a :: l, 0, f => f a :: l
  | a :: l, i + 1, f => a :: modifyIdx l i f

/-- Rebuild a node with the given children. -/
def withChildren {σ : Type} (n : Node σ) (cs : Option (List (Node σ))) : Node σ :=
  Node.mk n.state n.reward n.is_terminal n.N n.storedQ n.depth cs

/-- `_back_propagate` as a transformation of the whole tree: the visited
path is the chain of child indices from the root; every node on it gets
the `bpUpd` update (the loop order is irrelevant since distinct nodes are
updated). -/
def bpTree {σ : Type} (r : ℚ) : List ℕ → Node σ → Node σ
  | [], n => bpUpd r n
  | i :: rest, n =>
    withChildren (bpUpd r n) ((n.children).map (fun cs => modifyIdx cs i (bpTree r rest)))

/-- Apply `f` to the node addressed by a chain of child indices. -/
def updateAt {σ : Type} (f : Node σ → Node σ) : List ℕ → Node σ → Node σ
  | [], n => f n
  | i :: rest, n =>
    withChildren n ((n.children).map (fun cs => modifyIdx cs i (updateAt f rest)))

/-- `_expand`'s child creation: install the freshly created children. -/
def setChildren {σ : Type} (kids : List (Node σ)) (n : Node σ) : Node σ :=
  withChildren n (some kids)

/-- `_expand`'s state resolution: assign `state`, `reward` and
`is_terminal` of a node, leaving `N`, `_Q` and the children untouched. -/
def resolveNode {σ : Type} (st : σ) (rew : ℚ) (term : Bool) (n : Node σ) : Node σ :=
  Node.mk (some st) rew term n.N n.storedQ n.depth n.children

/-- Trees reachable by iterating from a fresh root.  This
over-approximates what `MCTS.search` can build: the root starts with
`N = 0` and uninitialized children; any interleaving of expansions
(installing fresh children with `N = 0` and no children of their own),
state resolutions, and back-propagations along root-descending paths is
allowed. -/
inductive Reach {σ : Type} : Node σ → Prop where
  | root (s : Option σ) (rew : ℚ) (term : Bool) (q : ℚ) (d : ℕ) :
      Reach (Node.mk s rew term 0 q d none)
  | bp {t : Node σ} (r : ℚ) (path : List ℕ) :
      Reach t → Reach (bpTree r path t)
  | expand {t : Node σ} (path : List ℕ) (kids : List (Node σ)) :
      Reach t → (∀ c ∈ kids, c.N = 0 ∧ c.children = none) →
      Reach (updateAt (setChildren kids) path t)
  | resolve {t : Node σ} (path : List ℕ) (st : σ) (rew : ℚ) (term : Bool) :
      Reach t → Reach (updateAt (resolveNode st rew term) path t)

/-- The children list, empty when uninitialized. -/
def childrenList {σ : Type} (n : Node σ) : List (Node σ) :=
  (n.children).getD []

/-- The visit-count invariant: every child's `N` is at most its parent's,
throughout the tree. -/
inductive NInv {σ : Type} : Node σ → Prop where
  | mk {n : Node σ} :
      (∀ c ∈ childrenList n, c.N ≤ n.N) →
      (∀ c ∈ childrenList n, NInv c) →
      NInv n

/-- `m` is a node of the tree rooted at `n`. -/
inductive SubtreeOf {σ : Type} : Node σ → Node σ → Prop where
  | refl (n : Node σ) : SubtreeOf n n
  | child {m c n : Node σ} : c ∈ childrenList n → SubtreeOf m c → SubtreeOf m n

/-- The root-to-terminal paths over resolved nodes that `max_reward`'s
depth-first search ranges over: starting at `n`, a path either stops at a
terminal node or steps to a child whose `state` is resolved. -/
inductive ExtPath {σ : Type} : Node σ → List (Node σ) → Prop where
  | term {n : Node σ} : n.is_terminal = true → ExtPath n [n]
  | step {n c : Node σ} {cs : List (Node σ)} {s : List (Node σ)} :
      n.children = some cs → c ∈ cs → c.state.isSome = true →
      ExtPath c s → ExtPath n (n :: s)

/-! ## Theorems -/

theorem qmean_append (rs : List ℚ) (r : ℚ) :
    qmean (rs ++ [r]) = (qmean rs * rs.length + r) / (rs.length + 1) := by
  rcases rs with _ | ⟨x, xs⟩
  · simp [qmean]
  · have hl : ((xs.length : ℚ) + 1) ≠ 0 := by positivity
    simp only [qmean, List.sum_append, List.length_append, List.sum_cons,
      List.sum_nil, List.length_cons, List.length_nil]
    push_cast
    rw [div_mul_cancel₀ _ hl]
    ring_nf

/-- C1: for every non-empty path, `_back_propagate` reads `r`, the reward of
the path's last node, updates each node `n` on the path by
`Q ← (Q·N + r)/(N + 1); N ← N + 1` (so each node's `N` grows by exactly one
and `Q` stays the running mean of the leaf rewards of the back-propagations
through it, `Q` reading 0 when `N = 0`), and returns the updated `Q` of the
path's first node, the root. -/
theorem back_propagate_correct {σ : Type} (path : List (Node σ)) (leaf root : Node σ)
    (hleaf : path.getLast? = some leaf) (hroot : path.head? = some root) :
    back_propagate path
      = some (path.map (bpUpd leaf.reward), (bpUpd leaf.reward root).Q) ∧
    ∀ n ∈ path,
      (bpUpd leaf.reward n).N = n.N + 1 ∧
      (bpUpd leaf.reward n).Q = (n.Q * n.N + leaf.reward) / (n.N + 1) ∧
      ∀ rs : List ℚ, n.N = rs.length → n.Q = qmean rs →
        (bpUpd leaf.reward n).Q = qmean (rs ++ [leaf.reward]) := by
  rcases path with _ | ⟨a, rest⟩
  · simp at hleaf
  · have ha : a = root := by simpa using hroot
    have hgl : rest.getLastD a = leaf := by
      rw [List.getLast?_cons] at hleaf
      simpa using hleaf
    constructor
    · have hdef : back_propagate (a :: rest)
          = some ((a :: rest).map (bpUpd ((rest.getLastD a).reward)),
                  (bpUpd ((rest.getLastD a).reward) a).Q) := rfl
      rw [hdef, hgl, ha]
    · intro n _
      have hN : (bpUpd leaf.reward n).N = n.N + 1 := rfl
      have hQ : (bpUpd leaf.reward n).Q = (n.Q * n.N + leaf.reward) / (n.N + 1) := by
        simp [bpUpd, Node.Q, Node.N, Node.storedQ]
      refine ⟨hN, hQ, ?_⟩
      intro rs hlen hmean
      rw [hQ, hmean, hlen, qmean_append]

/-- A concrete already-visited root (`N = 1`, stored `_Q = 3`). -/
def C1n0 : Node Unit := Node.mk none 0 false 1 3 0 none

/-- A concrete unvisited leaf with reward 5. -/
def C1n1 : Node Unit := Node.mk none 5 false 0 0 1 none

theorem back_propagate_correct_witness :
    ([C1n0, C1n1] : List (Node Unit)).getLast? = some C1n1 ∧
    ([C1n0, C1n1] : List (Node Unit)).head? = some C1n0 ∧
    back_propagate [C1n0, C1n1]
      = some ([Node.mk none 0 false 2 4 0 none, Node.mk none 5 false 1 5 1 none],
              (4 : ℚ)) :=
  ⟨rfl, rfl, by
    rw [(back_propagate_correct [C1n0, C1n1] C1n1 C1n0 rfl rfl).1]
    simp only [C1n0, C1n1, bpUpd, Node.Q, Node.N, Node.storedQ, Node.state,
      Node.reward, Node.is_terminal, Node.depth, Node.children, List.map_cons,
      List.map_nil, Option.some.injEq, Prod.mk.injEq, Node.mk.injEq]
    norm_num⟩

theorem find_first_split {α : Type} (p : α → Bool) (l : List α) :
    (∃ x ∈ l, p x = true) →
    ∃ l1 c l2, l = l1 ++ c :: l2 ∧ p c = true ∧ (∀ y ∈ l1, p y = false) ∧
      l.find? p = some c := by
  induction l with
  | nil => rintro ⟨x, hx, _⟩; simp at hx
  | cons a l ih =>
    intro hex
    by_cases hpa : p a = true
    · exact ⟨[], a, l, by simp, hpa, by simp, by
        rw [List.find?_cons_of_pos _ hpa]⟩
    · have hpa' : p a = false := by simpa using hpa
      have hex' : ∃ x ∈ l, p x = true := by
        rcases hex with ⟨x, hx, hpx⟩
        rcases List.mem_cons.mp hx with h | h
        · rw [h] at hpx; exact absurd hpx hpa
        · exact ⟨x, h, hpx⟩
      rcases ih hex' with ⟨l1, c, l2, heq, hcp, hl1, hfind⟩
      refine ⟨a :: l1, c, l2, by rw [heq]; rfl, hcp, ?_, ?_⟩
      · intro y hy
        rcases List.mem_cons.mp hy with h | h
        · rw [h]; exact hpa'
        · exact hl1 y h
      · rw [List.find?_cons_of_neg _ (by simp [hpa']), hfind]

/-- C2: for every node with a non-empty children list, `_uct_select`
returns the first child (in insertion order) with `N = 0` when one
exists; otherwise — provided the parent has been visited, so that
`math.log(parent.N)` is defined (see the reachability theorem for
`uctE`) — it returns a child maximizing
`c.Q + w_exp*sqrt(ln(parent.N)/(1 + c.N))`; and the result never
depends on the `uct_with_fast_reward` flag. -/
theorem uct_select_correct {σ : Type} (w : ℝ) (flag : Bool) (p : Node σ)
    (cs : List (Node σ)) (hc : p.children = some cs) (hne : cs ≠ []) :
    (∀ flag2 : Bool, uct_select w flag2 p = uct_select w flag p) ∧
    ((∃ c ∈ cs, c.N = 0) →
      ∃ l1 c l2, cs = l1 ++ c :: l2 ∧ c.N = 0 ∧ (∀ x ∈ l1, x.N ≠ 0) ∧
        uct_select w flag p = some c) ∧
    ((∀ c ∈ cs, c.N ≠ 0) → 0 < p.N →
      ∃ c ∈ cs, uct_select w flag p = some c ∧
        ∀ x ∈ cs, uctR w p.N x ≤ uctR w p.N c) := by
  refine ⟨fun _ => rfl, ?_, ?_⟩
  · rintro ⟨c0, hc0, hN0⟩
    rcases find_first_split (fun c => c.N == 0) cs ⟨c0, hc0, by simp [hN0]⟩ with
      ⟨l1, c, l2, heq, hcN, hl1, hfind⟩
    refine ⟨l1, c, l2, heq, by simpa using hcN, ?_, ?_⟩
    · intro x hx
      simpa using hl1 x hx
    · simp only [uct_select, hc, hfind]
  · intro hall hpos
    have hfind : cs.find? (fun c => c.N == 0) = none := by
      apply List.find?_eq_none.mpr
      intro x hx
      simp [hall x hx]
    rcases cs with _ | ⟨c1, rest⟩
    · exact absurd rfl hne
    refine ⟨pymax (uctR w p.N) c1 rest, pymax_mem _ _ _, ?_, pymax_ge _ _ _⟩
    simp only [uct_select, hc, hfind]
    rw [if_neg (by omega)]

/-- A visited child (`N = 1`). -/
def C2c1 : Node Unit := Node.mk (some ()) 1 false 1 2 1 none

/-- An unvisited child (`N = 0`). -/
def C2c2 : Node Unit := Node.mk none 2 false 0 0 1 none

/-- A parent with one visited and one unvisited child. -/
def C2p : Node Unit := Node.mk (some ()) 0 false 3 0 0 (some [C2c1, C2c2])

theorem uct_select_correct_witness :
    C2p.children = some [C2c1, C2c2] ∧ ([C2c1, C2c2] : List (Node Unit)) ≠ [] ∧
    ∃ l1 c l2, [C2c1, C2c2] = l1 ++ c :: l2 ∧ c.N = 0 ∧ (∀ x ∈ l1, x.N ≠ 0) ∧
      uct_select 1 true C2p = some c :=
  ⟨rfl, by simp,
    (uct_select_correct 1 true C2p [C2c1, C2c2] rfl (by simp)).2.1
      ⟨C2c2, by simp, rfl⟩⟩

/-- C7 counterexample: constructing the engine with the unknown string
`simulate_strategy = "bogus_strategy"` does **not** fail — `dict.get`'s
fallback stores the raw string itself as the choice function, so
construction succeeds. -/
theorem simulate_strategy_not_validated :
    mctsInit "bogus_strategy" "max_reward"
      = some ⟨SimChoice.customStr "bogus_strategy", "max_reward"⟩ := by
  simp [mctsInit, validOutputStrategies, resolveSimulateStrategy]

/-- C7 amended: an unknown `output_strategy` and an unknown aggregator
`weight_policy` are rejected at construction time (the `assert`s in
`MCTS.__init__` and `MCTSAggregation.__init__`); an unknown *string*
`simulate_strategy` is **not** rejected — construction succeeds and the
raw string is stored as the simulate-choice function. -/
theorem config_validation (sim outp wp : String) :
    (mctsInit sim outp = none ↔ outp ∉ validOutputStrategies) ∧
    (aggregationInit wp = none ↔ wp ∉ validWeightPolicies) ∧
    (outp ∈ validOutputStrategies → sim ≠ "max" → sim ≠ "sample" → sim ≠ "random" →
      mctsInit sim outp = some ⟨SimChoice.customStr sim, outp⟩) := by
  refine ⟨?_, ?_, ?_⟩
  · by_cases h : outp ∈ validOutputStrategies <;> simp [mctsInit, h]
  · by_cases h : wp ∈ validWeightPolicies <;> simp [aggregationInit, h]
  · intro h h1 h2 h3
    simp [mctsInit, h, resolveSimulateStrategy, h1, h2, h3]

theorem config_validation_witness :
    (mctsInit "bogus_strategy" "not_a_strategy" = none ↔
      "not_a_strategy" ∉ validOutputStrategies) ∧
    (aggregationInit "not_a_policy" = none ↔
      "not_a_policy" ∉ validWeightPolicies) ∧
    ("max_reward" ∈ validOutputStrategies → "bogus_strategy" ≠ "max" →
      "bogus_strategy" ≠ "sample" → "bogus_strategy" ≠ "random" →
      mctsInit "bogus_strategy" "max_reward"
        = some ⟨SimChoice.customStr "bogus_strategy", "max_reward"⟩) :=
  ⟨(config_validation "bogus_strategy" "not_a_strategy" "not_a_policy").1,
   (config_validation "bogus_strategy" "not_a_strategy" "not_a_policy").2.1,
   fun h h1 h2 h3 =>
     (config_validation "bogus_strategy" "max_reward" "not_a_policy").2.2 h h1 h2 h3⟩

/-- C8: with `output_trace_in_each_iter = True`, the per-iteration trace
list returned by the search is always the *empty* list — the loop never
appends to it (the append is commented out in the source) — and
`tree_state_after_each_iter` is its (empty) image; so the result does
**not** contain one snapshot per iteration.  With the flag unset both
fields are absent. -/
theorem trace_in_each_iter_stays_empty {σ : Type} (iterPaths : List (List (Node σ))) :
    mkTraceOutputs true iterPaths = (some [], some []) ∧
    mkTraceOutputs false iterPaths = (none, none) ∧
    searchTraceInEachIter true iterPaths = some [] := by
  have hfold : iterPaths.foldl (fun acc _ => acc) ([] : List (List (Node σ))) = [] := by
    induction iterPaths with
    | nil => rfl
    | cons a l ih => rw [List.foldl_cons]; exact ih
  refine ⟨?_, ?_, ?_⟩
  · simp [mkTraceOutputs, searchTraceInEachIter, hfold]
  · simp [mkTraceOutputs, searchTraceInEachIter]
  · simp [searchTraceInEachIter, hfold]

/-- C3: with `output_strategy = "max_visit"`, no code records or computes an
output at all: the per-iteration recording never fires (its branches test
the other strategies), the post-loop dispatch passes the initial
`(None, -inf)` through unchanged, and the result therefore has an absent
terminal state and trace and `cum_reward = -inf` — for *every* tree,
including ones that contain a visited terminal node. -/
theorem max_visit_yields_absent {σ : Type} (its : List (IterOutcome σ))
    (cum : List ℚ → ℚ) (root : Node σ) :
    run_iters "max_visit" its = (none, ⊥) ∧
    search_finalize "max_visit" cum root (run_iters "max_visit" its) = some (none, ⊥) ∧
    result_terminal_state (none : Option (List (Node σ))) = none ∧
    result_trace (none : Option (List (Node σ))) = none := by
  have hrec : run_iters "max_visit" its = (none, ⊥) := by
    have : ∀ acc, List.foldl (record_iter "max_visit") acc its = acc := by
      induction its with
      | nil => intro acc; rfl
      | cons a l ih =>
        intro acc
        rw [List.foldl_cons]
        have hstep : record_iter "max_visit" acc a = acc := by
          simp [record_iter]
        rw [hstep]
        exact ih acc
    exact this (none, ⊥)
  refine ⟨hrec, ?_, rfl, rfl⟩
  rw [hrec]
  simp [search_finalize]

theorem record_iter_max_iter {σ : Type} (acc : Option (List (Node σ)) × WithBot ℚ)
    (it : IterOutcome σ) :
    record_iter "max_iter" acc it
      = if endsTerminal it.path = true ∧ acc.2 < (it.q : WithBot ℚ)
        then (some it.path, (it.q : WithBot ℚ)) else acc := by
  simp [record_iter]

theorem record_iter_last_terminal {σ : Type} (acc : Option (List (Node σ)) × WithBot ℚ)
    (it : IterOutcome σ) :
    record_iter "last_terminal_iter" acc it
      = if endsTerminal it.path = true then (some it.path, (it.q : WithBot ℚ)) else acc := by
  by_cases h : endsTerminal it.path = true <;> simp [record_iter, h]

theorem foldl_record_no_terminal {σ : Type} (s : String) (hs : s ≠ "last_iter")
    (its : List (IterOutcome σ)) (h : ∀ it ∈ its, endsTerminal it.path = false) :
    ∀ acc, List.foldl (record_iter s) acc its = acc := by
  induction its with
  | nil => intro acc; rfl
  | cons a l ih =>
    intro acc
    rw [List.foldl_cons]
    have ha := h a (by simp)
    have hstep : record_iter s acc a = acc := by
      simp [record_iter, ha, hs]
    rw [hstep]
    exact ih (fun it hit => h it (by simp [hit])) acc

theorem run_iters_max_iter_aux {σ : Type} (its : List (IterOutcome σ)) :
    (∃ it ∈ its, endsTerminal it.path = true) →
    ∃ it ∈ its, endsTerminal it.path = true ∧
      run_iters "max_iter" its = (some it.path, (it.q : WithBot ℚ)) ∧
      ∀ it2 ∈ its, endsTerminal it2.path = true → it2.q ≤ it.q := by
  induction its using List.reverseRecOn with
  | nil => rintro ⟨it, hit, _⟩; simp at hit
  | append_singleton l last ih =>
    intro hex
    have happ : run_iters "max_iter" (l ++ [last])
        = record_iter "max_iter" (run_iters "max_iter" l) last := by
      simp [run_iters, List.foldl_append]
    cases hterm : endsTerminal last.path with
    | false =>
      have hex' : ∃ it ∈ l, endsTerminal it.path = true := by
        rcases hex with ⟨it, hit, h1⟩
        rcases List.mem_append.mp hit with h | h
        · exact ⟨it, h, h1⟩
        · simp at h; rw [h, hterm] at h1; cases h1
      rcases ih hex' with ⟨it, hit, h1, h2, h3⟩
      refine ⟨it, List.mem_append_left _ hit, h1, ?_, ?_⟩
      · rw [happ, h2, record_iter_max_iter, if_neg]
        rintro ⟨hcon, _⟩
        rw [hterm] at hcon; cases hcon
      · intro it2 hit2 ht2
        rcases List.mem_append.mp hit2 with h | h
        · exact h3 it2 h ht2
        · simp at h; rw [h, hterm] at ht2; cases ht2
    | true =>
      by_cases hexl : ∃ it ∈ l, endsTerminal it.path = true
      · rcases ih hexl with ⟨it, hit, h1, h2, h3⟩
        by_cases hlt : (it.q : WithBot ℚ) < (last.q : WithBot ℚ)
        · refine ⟨last, List.mem_append_right _ (by simp), hterm, ?_, ?_⟩
          · rw [happ, h2, record_iter_max_iter, if_pos ⟨hterm, hlt⟩]
          · intro it2 hit2 ht2
            have hql : it.q ≤ last.q := le_of_lt (WithBot.coe_lt_coe.mp hlt)
            rcases List.mem_append.mp hit2 with h | h
            · exact le_trans (h3 it2 h ht2) hql
            · simp at h; rw [h]
        · refine ⟨it, List.mem_append_left _ hit, h1, ?_, ?_⟩
          · rw [happ, h2, record_iter_max_iter, if_neg]
            rintro ⟨_, hcon⟩; exact hlt hcon
          · intro it2 hit2 ht2
            rcases List.mem_append.mp hit2 with h | h
            · exact h3 it2 h ht2
            · simp at h; rw [h]
              exact WithBot.coe_le_coe.mp (le_of_not_lt hlt)
      · have hl : ∀ it ∈ l, endsTerminal it.path = false := by
          intro it hit
          by_cases hb : endsTerminal it.path = true
          · exact absurd ⟨it, hit, hb⟩ hexl
          · simpa using hb
        have h0 : run_iters "max_iter" l = (none, ⊥) :=
          foldl_record_no_terminal "max_iter" (by simp) l hl (none, ⊥)
        refine ⟨last, List.mem_append_right _ (by simp), hterm, ?_, ?_⟩
        · rw [happ, h0, record_iter_max_iter,
            if_pos ⟨hterm, WithBot.bot_lt_coe last.q⟩]
        · intro it2 hit2 ht2
          rcases List.mem_append.mp hit2 with h | h
          · rw [hl it2 h] at ht2; cases ht2
          · simp at h; rw [h]

theorem run_iters_last_terminal_aux {σ : Type} (its : List (IterOutcome σ)) :
    (∃ it ∈ its, endsTerminal it.path = true) →
    ∃ pre it post, its = pre ++ it :: post ∧ endsTerminal it.path = true ∧
      (∀ it2 ∈ post, endsTerminal it2.path = false) ∧
      run_iters "last_terminal_iter" its = (some it.path, (it.q : WithBot ℚ)) := by
  induction its using List.reverseRecOn with
  | nil => rintro ⟨it, hit, _⟩; simp at hit
  | append_singleton l last ih =>
    intro hex
    have happ : run_iters "last_terminal_iter" (l ++ [last])
        = record_iter "last_terminal_iter" (run_iters "last_terminal_iter" l) last := by
      simp [run_iters, List.foldl_append]
    cases hterm : endsTerminal last.path with
    | true =>
      refine ⟨l, last, [], by simp, hterm, by simp, ?_⟩
      rw [happ, record_iter_last_terminal, if_pos hterm]
    | false =>
      have hex' : ∃ it ∈ l, endsTerminal it.path = true := by
        rcases hex with ⟨it, hit, h1⟩
        rcases List.mem_append.mp hit with h | h
        · exact ⟨it, h, h1⟩
        · simp at h; rw [h, hterm] at h1; cases h1
      rcases ih hex' with ⟨pre, it, post, heq, h1, h2, h3⟩
      refine ⟨pre, it, post ++ [last], by rw [heq]; simp, h1, ?_, ?_⟩
      · intro it2 hit2
        rcases List.mem_append.mp hit2 with h | h
        · exact h2 it2 h
        · simp at h; rw [h, hterm]
      · rw [happ, h3, record_iter_last_terminal, if_neg]
        rw [hterm]; simp

/-- C5: with `output_strategy = "max_iter"` the recorded output path is a
terminal-ending iteration path whose back-propagation value is maximal
among all terminal-ending iterations; with
`output_strategy = "last_terminal_iter"` it is the path of the most
recent iteration ending in a terminal node. -/
theorem output_strategy_iteration_consistency {σ : Type} (its : List (IterOutcome σ))
    (hex : ∃ it ∈ its, endsTerminal it.path = true) :
    (∃ it ∈ its, endsTerminal it.path = true ∧
      run_iters "max_iter" its = (some it.path, (it.q : WithBot ℚ)) ∧
      ∀ it2 ∈ its, endsTerminal it2.path = true → it2.q ≤ it.q) ∧
    (∃ pre it post, its = pre ++ it :: post ∧ endsTerminal it.path = true ∧
      (∀ it2 ∈ post, endsTerminal it2.path = false) ∧
      run_iters "last_terminal_iter" its = (some it.path, (it.q : WithBot ℚ))) :=
  ⟨run_iters_max_iter_aux its hex, run_iters_last_terminal_aux its hex⟩

/-- A terminal node for the iteration-recording witness. -/
def C5t : Node Unit := Node.mk (some ()) 1 true 1 0 1 none

/-- A non-terminal node for the iteration-recording witness. -/
def C5n : Node Unit := Node.mk (some ()) 1 false 1 0 1 none

/-- Three iteration outcomes: terminal with value 3, non-terminal with
value 7, terminal with value 2. -/
def C5its : List (IterOutcome Unit) := [⟨[C5t], 3⟩, ⟨[C5n], 7⟩, ⟨[C5t], 2⟩]

theorem output_strategy_iteration_consistency_witness :
    (∃ it ∈ C5its, endsTerminal it.path = true) ∧
    ((∃ it ∈ C5its, endsTerminal it.path = true ∧
      run_iters "max_iter" C5its = (some it.path, (it.q : WithBot ℚ)) ∧
      ∀ it2 ∈ C5its, endsTerminal it2.path = true → it2.q ≤ it.q) ∧
    (∃ pre it post, C5its = pre ++ it :: post ∧ endsTerminal it.path = true ∧
      (∀ it2 ∈ post, endsTerminal it2.path = false) ∧
      run_iters "last_terminal_iter" C5its = (some it.path, (it.q : WithBot ℚ)))) :=
  ⟨⟨⟨[C5t], 3⟩, by simp [C5its], rfl⟩,
   output_strategy_iteration_consistency C5its ⟨⟨[C5t], 3⟩, by simp [C5its], rfl⟩⟩

/-- The default `cum_reward` reducer of the engine: `sum`. -/
def qsum (l : List ℚ) : ℚ := l.sum

/-- Terminal grandchild with reward 7. -/
def C6b : Node Unit := Node.mk (some ()) 7 true 0 0 2 none

/-- Resolved middle child with reward 5. -/
def C6a : Node Unit := Node.mk (some ()) 5 false 0 0 1 (some [C6b])

/-- Root (reward 0) of the three-node chain. -/
def C6root : Node Unit := Node.mk (some ()) 0 false 0 0 0 (some [C6a])

/-- C9: applying the aggregator with `weight_policy = "edge_inverse_depth"`
to a tree whose root is itself terminal with a resolved state and a
retrievable answer raises `ZeroDivisionError`: the credit
`cur.reward / cur.depth` is computed with `cur.depth = 0`, unguarded. -/
theorem aggregation_edge_inverse_depth_div_zero {σ α : Type} [DecidableEq α]
    (ret : σ → Option α) (root : Node σ) (st : σ) (a : α)
    (h1 : root.state = some st) (h2 : root.is_terminal = true)
    (h3 : root.depth = 0) (h4 : ret st = some a) :
    MCTSAggregation_call "edge_inverse_depth" ret root = none := by
  cases root with
  | mk s r t n q d cc =>
    simp only [Node.state] at h1
    simp only [Node.is_terminal] at h2
    simp only [Node.depth] at h3
    subst h1; subst h2; subst h3
    have hv : visit "edge_inverse_depth" ret ([] : Dict α)
        (Node.mk (some st) r true n q 0 cc) = none := by
      rw [visit]
      simp [Node.state, Node.is_terminal, Node.depth, Node.reward, h4, pydiv]
    simp [MCTSAggregation_call, hv]

/-- A terminal root at depth 0 with reward 3. -/
def C9root : Node Unit := Node.mk (some ()) 3 true 0 0 0 none

/-- An answer-retrieval function that always answers 0. -/
def C9ret : Unit → Option ℕ := fun _ => some 0

theorem aggregation_edge_inverse_depth_div_zero_witness :
    C9root.state = some () ∧ C9root.is_terminal = true ∧ C9root.depth = 0 ∧
    C9ret () = some 0 ∧
    MCTSAggregation_call "edge_inverse_depth" C9ret C9root = none :=
  ⟨rfl, rfl, rfl, rfl,
    aggregation_edge_inverse_depth_div_zero C9ret C9root () 0 rfl rfl rfl rfl⟩

theorem followMaxPath_term {σ : Type} (cur : Node σ) (h : cur.is_terminal = true) :
    followMaxPath cur = some [cur] := by
  rw [followMaxPath]
  simp [h]

theorem followMaxPath_step {σ : Type} (cur v : Node σ) (cs vs : List (Node σ))
    (hterm : cur.is_terminal = false) (hc : cur.children = some cs)
    (hv : cs.filter (fun c => c.state.isSome) = v :: vs) :
    followMaxPath cur = (followMaxPath (pymax Node.reward v vs)).map (fun p => cur :: p) := by
  rw [followMaxPath]
  simp only [hterm, Bool.false_eq_true, if_false]
  split
  · rename_i heq
    rw [hc] at heq
    cases heq
  · rename_i cs' heq
    rw [hc] at heq
    injection heq with heq'
    subst heq'
    split
    · rename_i heq2
      rw [hv] at heq2
      cases heq2
    · rename_i v' vs' heq2
      rw [hv] at heq2
      injection heq2 with h1 h2
      subst h1
      subst h2
      rfl

/-- C6: on the chain root → a → b (rewards 0, 5, 7), `follow_max` follows the
greedy path `[root, a, b]`, but the stored cumulative reward is
`sum(rewards of path[1::-1]) = sum [5, 0] = 5` — the source reverses only
the first two path entries — whereas the rewards of the followed path
excluding the root sum to 12. -/
theorem follow_max_cum_slice_quirk :
    followMaxPath C6root = some [C6root, C6a, C6b] ∧
    search_finalize "follow_max" qsum C6root (none, ⊥)
      = some (some [C6root, C6a, C6b], ((5 : ℚ) : WithBot ℚ)) ∧
    qsum (([C6root, C6a, C6b].drop 1).map Node.reward) = 12 ∧
    (5 : ℚ) ≠ 12 := by
  have hfil_b : ([C6b] : List (Node Unit)).filter (fun c => c.state.isSome) = [C6b] := rfl
  have hfil_a : ([C6a] : List (Node Unit)).filter (fun c => c.state.isSome) = [C6a] := rfl
  have hb : followMaxPath C6b = some [C6b] := followMaxPath_term C6b rfl
  have ha : followMaxPath C6a = some [C6a, C6b] := by
    rw [followMaxPath_step C6a C6b [C6b] [] rfl rfl hfil_b,
      show pymax Node.reward C6b ([] : List (Node Unit)) = C6b from rfl, hb]
    rfl
  have hr : followMaxPath C6root = some [C6root, C6a, C6b] := by
    rw [followMaxPath_step C6root C6a [C6a] [] rfl rfl hfil_a,
      show pymax Node.reward C6a ([] : List (Node Unit)) = C6a from rfl, ha]
    rfl
  refine ⟨hr, ?_, ?_, by norm_num⟩
  · simp only [search_finalize]
    rw [if_neg (by decide : ¬ ("follow_max" = "max_reward")), if_pos trivial, hr]
    simp [slice1rev, qsum, C6root, C6a, C6b, Node.reward]
  · simp [qsum, C6a, C6b, Node.reward]
    norm_num

/-! ## The reachability invariant behind the `math.log` domain safety -/

theorem bpUpd_N {σ : Type} (r : ℚ) (n : Node σ) : (bpUpd r n).N = n.N + 1 := rfl

theorem bpUpd_children {σ : Type} (r : ℚ) (n : Node σ) :
    (bpUpd r n).children = n.children := rfl

theorem withChildren_N {σ : Type} (n : Node σ) (cs : Option (List (Node σ))) :
    (withChildren n cs).N = n.N := rfl

theorem withChildren_children {σ : Type} (n : Node σ) (cs : Option (List (Node σ))) :
    (withChildren n cs).children = cs := rfl

theorem childrenList_eq {σ : Type} (n : Node σ) (cs : List (Node σ))
    (h : n.children = some cs) : childrenList n = cs := by
  simp [childrenList, h]

theorem childrenList_none {σ : Type} (n : Node σ) (h : n.children = none) :
    childrenList n = [] := by
  simp [childrenList, h]

theorem bpTree_N {σ : Type} (r : ℚ) (path : List ℕ) (n : Node σ) :
    (bpTree r path n).N = n.N + 1 := by
  cases path with
  | nil => rfl
  | cons i rest => rfl

theorem modifyIdx_mem {σ : Type} {x : Node σ} (l : List (Node σ)) (i : ℕ)
    (f : Node σ → Node σ) (hx : x ∈ modifyIdx l i f) :
    x ∈ l ∨ ∃ a ∈ l, x = f a := by
  induction l generalizing i with
  | nil => simp [modifyIdx] at hx
  | cons a l ih =>
    cases i with
    | zero =>
      simp only [modifyIdx] at hx
      rcases List.mem_cons.mp hx with h | h
      · exact Or.inr ⟨a, by simp, h⟩
      · exact Or.inl (List.mem_cons_of_mem a h)
    | succ i =>
      simp only [modifyIdx] at hx
      rcases List.mem_cons.mp hx with h | h
      · exact Or.inl (by simp [h])
      · rcases ih i h with h1 | ⟨b, hb, h2⟩
        · exact Or.inl (List.mem_cons_of_mem a h1)
        · exact Or.inr ⟨b, List.mem_cons_of_mem a hb, h2⟩

theorem NInv_bpUpd {σ : Type} (r : ℚ) (n : Node σ) (h : NInv n) : NInv (bpUpd r n) := by
  rcases h with ⟨hN, hsub⟩
  refine NInv.mk ?_ ?_
  · intro c hc
    have : childrenList (bpUpd r n) = childrenList n := by
      simp [childrenList, bpUpd_children]
    rw [this] at hc
    rw [bpUpd_N]
    exact le_trans (hN c hc) (Nat.le_succ _)
  · intro c hc
    have : childrenList (bpUpd r n) = childrenList n := by
      simp [childrenList, bpUpd_children]
    rw [this] at hc
    exact hsub c hc

theorem NInv_bpTree {σ : Type} (r : ℚ) (path : List ℕ) (n : Node σ) (h : NInv n) :
    NInv (bpTree r path n) := by
  induction path generalizing n with
  | nil => exact NInv_bpUpd r n h
  | cons i rest ih =>
    rcases h with ⟨hN, hsub⟩
    cases n with
    | mk s rew t nn q d cc =>
      cases cc with
      | none =>
        refine NInv.mk ?_ ?_ <;>
          · intro c hcmem
            exact absurd (hcmem : c ∈ ([] : List (Node σ))) (List.not_mem_nil c)
      | some cs =>
        refine NInv.mk ?_ ?_
        · intro c hcmem
          have hmem2 : c ∈ modifyIdx cs i (bpTree r rest) := hcmem
          have hgoal : (bpTree r (i :: rest) (Node.mk s rew t nn q d (some cs))).N
              = nn + 1 := rfl
          rw [hgoal]
          rcases modifyIdx_mem cs i _ hmem2 with hmem | ⟨a, ha, heq⟩
          · exact le_trans (hN c hmem) (Nat.le_succ _)
          · rw [heq, bpTree_N]
            exact Nat.succ_le_succ (hN a ha)
        · intro c hcmem
          have hmem2 : c ∈ modifyIdx cs i (bpTree r rest) := hcmem
          rcases modifyIdx_mem cs i _ hmem2 with hmem | ⟨a, ha, heq⟩
          · exact hsub c hmem
          · rw [heq]
            exact ih a (hsub a ha)

theorem updateAt_N {σ : Type} (f : Node σ → Node σ) (hf : ∀ m, (f m).N = m.N)
    (p : List ℕ) (n : Node σ) : (updateAt f p n).N = n.N := by
  cases p with
  | nil => exact hf n
  | cons i rest => rfl

theorem NInv_updateAt {σ : Type} (f : Node σ → Node σ)
    (hf1 : ∀ m, NInv m → NInv (f m)) (hf2 : ∀ m, (f m).N = m.N)
    (p : List ℕ) (n : Node σ) (h : NInv n) : NInv (updateAt f p n) := by
  induction p generalizing n with
  | nil => exact hf1 n h
  | cons i rest ih =>
    rcases h with ⟨hN, hsub⟩
    cases n with
    | mk s rew t nn q d cc =>
      cases cc with
      | none =>
        refine NInv.mk ?_ ?_ <;>
          · intro c hcmem
            exact absurd (hcmem : c ∈ ([] : List (Node σ))) (List.not_mem_nil c)
      | some cs =>
        refine NInv.mk ?_ ?_
        · intro c hcmem
          have hmem2 : c ∈ modifyIdx cs i (updateAt f rest) := hcmem
          have hgoal : (updateAt f (i :: rest) (Node.mk s rew t nn q d (some cs))).N
              = nn := rfl
          rw [hgoal]
          rcases modifyIdx_mem cs i _ hmem2 with hmem | ⟨a, ha, heq⟩
          · exact hN c hmem
          · rw [heq, updateAt_N f hf2]
            exact hN a ha
        · intro c hcmem
          have hmem2 : c ∈ modifyIdx cs i (updateAt f rest) := hcmem
          rcases modifyIdx_mem cs i _ hmem2 with hmem | ⟨a, ha, heq⟩
          · exact hsub c hmem
          · rw [heq]
            exact ih a (hsub a ha)

theorem NInv_setChildren {σ : Type} (kids : List (Node σ)) (n : Node σ)
    (hk : ∀ c ∈ kids, c.N = 0 ∧ c.children = none) (h : NInv n) :
    NInv (setChildren kids n) := by
  refine NInv.mk ?_ ?_
  · intro c hcmem
    have hc : c ∈ kids := hcmem
    have : c.N = 0 := (hk c hc).1
    rw [(rfl : (setChildren kids n).N = n.N), this]
    exact Nat.zero_le _
  · intro c hcmem
    have hc : c ∈ kids := hcmem
    refine NInv.mk ?_ ?_ <;>
      · intro x hx
        rw [childrenList_none c (hk c hc).2] at hx
        exact absurd hx (List.not_mem_nil x)

theorem NInv_resolveNode {σ : Type} (st : σ) (rew : ℚ) (term : Bool) (n : Node σ)
    (h : NInv n) : NInv (resolveNode st rew term n) := by
  rcases h with ⟨hN, hsub⟩
  cases n with
  | mk s rew0 t nn q d cc =>
    refine NInv.mk ?_ ?_
    · intro c hcmem
      exact hN c hcmem
    · intro c hcmem
      exact hsub c hcmem

theorem Reach_NInv {σ : Type} (t : Node σ) (h : Reach t) : NInv t := by
  induction h with
  | root s rew term q d =>
    refine NInv.mk ?_ ?_ <;>
      · intro c hcmem
        exact absurd (hcmem : c ∈ ([] : List (Node σ))) (List.not_mem_nil c)
  | bp r path _ ih => exact NInv_bpTree r path _ ih
  | expand path kids _ hk ih =>
    exact NInv_updateAt _ (fun m hm => NInv_setChildren kids m hk hm) (fun m => rfl)
      path _ ih
  | resolve path st rew term _ ih =>
    exact NInv_updateAt _ (fun m hm => NInv_resolveNode st rew term m hm) (fun m => rfl)
      path _ ih

theorem NInv_subtree {σ : Type} {p t : Node σ} (hs : SubtreeOf p t) (h : NInv t) :
    NInv p := by
  induction hs with
  | refl => exact h
  | child hc _ ih =>
    rcases h with ⟨_, hsub⟩
    exact ih (hsub _ hc)

/-- C10: in every tree reachable by iterating from a fresh root, whenever
`_uct_select` reaches its UCB1 branch at a node `p` (children initialized,
non-empty, all with `N ≠ 0`), the parent satisfies `N ≥ 1` — each
back-propagation incrementing a child's `N` also increments every
ancestor's — so `math.log(node.parent.N)` is never evaluated at 0: the
`uctE` domain check succeeds for every child and `_uct_select` completes
without an exception. -/
theorem uct_log_domain_safe {σ : Type} (w : ℝ) (t p : Node σ) (cs : List (Node σ))
    (hr : Reach t) (hs : SubtreeOf p t) (hc : p.children = some cs) (hne : cs ≠ [])
    (hv : ∀ c ∈ cs, c.N ≠ 0) :
    1 ≤ p.N ∧ (∀ c ∈ cs, (uctE w p.N c).isSome = true) ∧
    (∀ flag : Bool, uct_select w flag p ≠ none) := by
  have hinv : NInv p := NInv_subtree hs (Reach_NInv t hr)
  rcases hcs : cs with _ | ⟨c0, rest⟩
  · exact absurd hcs hne
  rcases hinv with ⟨hN, _⟩
  have hc0mem : c0 ∈ childrenList p := by
    rw [childrenList_eq p _ hc, hcs]
    simp
  have hc0 : c0.N ≤ p.N := hN c0 hc0mem
  have h1 : 1 ≤ p.N :=
    le_trans (Nat.one_le_iff_ne_zero.mpr (hv c0 (by rw [hcs]; simp))) hc0
  have hpn : p.N ≠ 0 := by omega
  refine ⟨h1, ?_, ?_⟩
  · intro c _
    simp [uctE, hpn]
  · intro flag
    have hfind : (c0 :: rest).find? (fun c => c.N == 0) = none := by
      apply List.find?_eq_none.mpr
      intro x hx
      simp [hv x (hcs ▸ hx)]
    rw [hcs] at hc
    simp only [uct_select, hc, hfind]
    rw [if_neg hpn]
    simp

/-- A fresh root. -/
def C10root : Node Unit := Node.mk (some ()) 0 false 0 0 0 none

/-- A freshly expanded child placeholder. -/
def C10kid : Node Unit := Node.mk none 1 false 0 0 1 none

/-- The root after expansion. -/
def C10t1 : Node Unit := updateAt (setChildren [C10kid]) [] C10root

/-- The tree after one back-propagation through the child. -/
def C10t2 : Node Unit := bpTree 1 [0] C10t1

theorem uct_log_domain_safe_witness :
    Reach C10t2 ∧ SubtreeOf C10t2 C10t2 ∧
    C10t2.children = some [bpUpd 1 C10kid] ∧
    ([bpUpd 1 C10kid] : List (Node Unit)) ≠ [] ∧
    (∀ c ∈ ([bpUpd 1 C10kid] : List (Node Unit)), c.N ≠ 0) ∧
    (1 ≤ C10t2.N ∧
      (∀ c ∈ ([bpUpd 1 C10kid] : List (Node Unit)), (uctE 1 C10t2.N c).isSome = true) ∧
      (∀ flag : Bool, uct_select 1 flag C10t2 ≠ none)) := by
  have hk : ∀ c ∈ ([C10kid] : List (Node Unit)), c.N = 0 ∧ c.children = none := by
    intro c hc
    simp at hc
    rw [hc]
    exact ⟨rfl, rfl⟩
  have hreach : Reach C10t2 :=
    Reach.bp 1 [0] (Reach.expand [] [C10kid] (Reach.root (some ()) 0 false 0 0) hk)
  have hv : ∀ c ∈ ([bpUpd 1 C10kid] : List (Node Unit)), c.N ≠ 0 := by
    intro c hc
    simp at hc
    rw [hc]
    simp [bpUpd_N]
  exact ⟨hreach, SubtreeOf.refl _, rfl, by simp, hv,
    uct_log_domain_safe 1 C10t2 C10t2 [bpUpd 1 C10kid] hreach (SubtreeOf.refl _)
      rfl (by simp) hv⟩

/-! ## Correctness of the `max_reward` depth-first search -/

theorem dfs_term {σ : Type} (cum : List ℚ → ℚ) (front : List (Node σ)) (cur : Node σ)
    (h : cur.is_terminal = true) :
    dfs_max_reward cum front cur
      = (((cum (((front ++ [cur]).drop 1).map Node.reward) : ℚ) : WithBot ℚ),
         front ++ [cur]) := by
  rw [dfs_max_reward]
  simp [h]

theorem dfs_nochildren {σ : Type} (cum : List ℚ → ℚ) (front : List (Node σ))
    (cur : Node σ) (h1 : cur.is_terminal = false) (h2 : cur.children = none) :
    dfs_max_reward cum front cur = (⊥, front ++ [cur]) := by
  rw [dfs_max_reward]
  simp only [h1, Bool.false_eq_true, if_false]
  split
  · rfl
  · rename_i cs heq
    rw [h2] at heq
    cases heq

theorem dfs_deadend {σ : Type} (cum : List ℚ → ℚ) (front : List (Node σ))
    (cur : Node σ) (cs : List (Node σ)) (h1 : cur.is_terminal = false)
    (h2 : cur.children = some cs) (h3 : cs.filter (fun c => c.state.isSome) = []) :
    dfs_max_reward cum front cur = (⊥, front ++ [cur]) := by
  rw [dfs_max_reward]
  simp only [h1, Bool.false_eq_true, if_false]
  split
  · rfl
  · rename_i cs' heq
    rw [h2] at heq
    injection heq with heq'
    subst heq'
    split
    · rfl
    · rename_i v' vs' heq2
      rw [h3] at heq2
      cases heq2

theorem dfs_step {σ : Type} (cum : List ℚ → ℚ) (front : List (Node σ))
    (cur v : Node σ) (cs vs : List (Node σ)) (h1 : cur.is_terminal = false)
    (h2 : cur.children = some cs)
    (h3 : cs.filter (fun c => c.state.isSome) = v :: vs) :
    dfs_max_reward cum front cur
      = pymax Prod.fst (dfs_max_reward cum (front ++ [cur]) v)
          (vs.map (dfs_max_reward cum (front ++ [cur]))) := by
  rw [dfs_max_reward]
  simp only [h1, Bool.false_eq_true, if_false]
  split
  · rename_i heq
    rw [h2] at heq
    cases heq
  · rename_i cs' heq
    rw [h2] at heq
    injection heq with heq'
    subst heq'
    split
    · rename_i heq2
      rw [h3] at heq2
      cases heq2
    · rename_i v' vs' heq2
      rw [h3] at heq2
      injection heq2 with hv1 hv2
      subst hv1
      subst hv2
      simp only [pymax]
      rw [List.foldl_map]
      conv_rhs => rw [← List.attach_map_subtype_val vs]
      rw [List.foldl_map]

theorem dfs_spec {σ : Type} (cum : List ℚ → ℚ) :
    ∀ (k : ℕ) (cur : Node σ), sizeOf cur ≤ k → ∀ (front : List (Node σ)),
    (∀ m, SubtreeOf m cur → m.is_terminal = true → m.children = none) →
    ((¬ ∃ s, ExtPath cur s) → (dfs_max_reward cum front cur).1 = ⊥) ∧
    ((∃ s, ExtPath cur s) →
      ∃ sb, ExtPath cur sb ∧
        (dfs_max_reward cum front cur).1
          = ((cum (((front ++ sb).drop 1).map Node.reward) : ℚ) : WithBot ℚ) ∧
        ∀ s2, ExtPath cur s2 →
          cum (((front ++ s2).drop 1).map Node.reward)
            ≤ cum (((front ++ sb).drop 1).map Node.reward)) := by
  intro k
  induction k with
  | zero =>
    intro cur hsz
    exfalso
    cases cur with
    | mk s r t n q d cc =>
      simp only [Node.mk.sizeOf_spec] at hsz
      omega
  | succ k ih =>
    intro cur hsz front hterm
    cases hT : cur.is_terminal with
    | true =>
      constructor
      · intro hno
        exact absurd ⟨[cur], ExtPath.term hT⟩ hno
      · intro _
        refine ⟨[cur], ExtPath.term hT, ?_, ?_⟩
        · rw [dfs_term cum front cur hT]
        · intro s2 hs2
          cases hs2 with
          | term h2 => exact le_refl _
          | @step _ c2 cs2 s2' hc2 hmem hst hext =>
            have hnone := hterm cur (SubtreeOf.refl cur) hT
            rw [hnone] at hc2
            cases hc2
    | false =>
      cases hc : cur.children with
      | none =>
        have hnone : ¬ ∃ s, ExtPath cur s := by
          rintro ⟨s, hs⟩
          cases hs with
          | term h2 =>
            rw [hT] at h2
            exact Bool.noConfusion h2
          | @step _ c2 cs2 s2' hc2 hmem hst hext =>
            rw [hc] at hc2
            cases hc2
        constructor
        · intro _
          rw [dfs_nochildren cum front cur hT hc]
        · intro hex
          exact absurd hex hnone
      | some cs =>
        cases hv : cs.filter (fun c => c.state.isSome) with
        | nil =>
          have hnone : ¬ ∃ s, ExtPath cur s := by
            rintro ⟨s, hs⟩
            cases hs with
            | term h2 =>
              rw [hT] at h2
              exact Bool.noConfusion h2
            | @step _ c2 cs2 s2' hc2 hmem hst hext =>
              rw [hc] at hc2
              injection hc2 with he
              subst he
              have hmem2 : c2 ∈ cs.filter (fun c => c.state.isSome) :=
                List.mem_filter.mpr ⟨hmem, hst⟩
              rw [hv] at hmem2
              exact absurd hmem2 (List.not_mem_nil c2)
          constructor
          · intro _
            rw [dfs_deadend cum front cur cs hT hc hv]
          · intro hex
            exact absurd hex hnone
        | cons v vs =>
          have hstep := dfs_step cum front cur v cs vs hT hc hv
          have hsub_filter : ∀ c ∈ v :: vs, c ∈ cs ∧ c.state.isSome = true := by
            intro c hcm
            have hmem2 : c ∈ cs.filter (fun c => c.state.isSome) := by
              rw [hv]
              exact hcm
            exact ⟨List.mem_of_mem_filter hmem2, by simpa using List.of_mem_filter hmem2⟩
          have hterm_c : ∀ c ∈ v :: vs, ∀ m, SubtreeOf m c → m.is_terminal = true →
              m.children = none := by
            intro c hcm m hm ht
            refine hterm m (SubtreeOf.child ?_ hm) ht
            rw [childrenList_eq cur cs hc]
            exact (hsub_filter c hcm).1
          have hsz_c : ∀ c ∈ v :: vs, sizeOf c ≤ k := by
            intro c hcm
            have := Node.sizeOf_mem_children hc (hsub_filter c hcm).1
            omega
          have IH := fun c hcm => ih c (hsz_c c hcm) (front ++ [cur]) (hterm_c c hcm)
          have bridge1 : ∀ s, ExtPath cur s →
              ∃ c ∈ v :: vs, ∃ s', s = cur :: s' ∧ ExtPath c s' := by
            intro s hs
            cases hs with
            | term h2 =>
              rw [hT] at h2
              exact Bool.noConfusion h2
            | @step _ c2 cs2 s2' hc2 hmem hst hext =>
              rw [hc] at hc2
              injection hc2 with he
              subst he
              have hmem2 : c2 ∈ cs.filter (fun c => c.state.isSome) :=
                List.mem_filter.mpr ⟨hmem, hst⟩
              rw [hv] at hmem2
              exact ⟨c2, hmem2, s2', rfl, hext⟩
          have bridge2 : ∀ c ∈ v :: vs, ∀ s', ExtPath c s' → ExtPath cur (cur :: s') := by
            intro c hcm s' hext
            exact ExtPath.step hc (hsub_filter c hcm).1 (hsub_filter c hcm).2 hext
          have hlist : (dfs_max_reward cum (front ++ [cur]) v)
              :: vs.map (dfs_max_reward cum (front ++ [cur]))
              = (v :: vs).map (dfs_max_reward cum (front ++ [cur])) := by
            rw [List.map_cons]
          have hres_mem := pymax_mem Prod.fst (dfs_max_reward cum (front ++ [cur]) v)
            (vs.map (dfs_max_reward cum (front ++ [cur])))
          have hres_ge := pymax_ge Prod.fst (dfs_max_reward cum (front ++ [cur]) v)
            (vs.map (dfs_max_reward cum (front ++ [cur])))
          constructor
          · intro hno
            rw [hstep]
            have hall : ∀ c ∈ v :: vs, (dfs_max_reward cum (front ++ [cur]) c).1 = ⊥ := by
              intro c hcm
              apply (IH c hcm).1
              rintro ⟨s', hs'⟩
              exact hno ⟨cur :: s', bridge2 c hcm s' hs'⟩
            rw [hlist] at hres_mem
            rcases List.mem_map.mp hres_mem with ⟨c, hcm, heq⟩
            rw [← heq]
            exact hall c hcm
          · rintro ⟨s, hs⟩
            rcases bridge1 s hs with ⟨c0, hc0m, s0, hseq, hext0⟩
            have hbm := hres_mem
            rw [hlist] at hbm
            rcases List.mem_map.mp hbm with ⟨cb, hcbm, heqb⟩
            rcases (IH c0 hc0m).2 ⟨s0, hext0⟩ with ⟨sb0, hsb0, hval0, hmax0⟩
            have hc0mem : dfs_max_reward cum (front ++ [cur]) c0
                ∈ (dfs_max_reward cum (front ++ [cur]) v)
                  :: vs.map (dfs_max_reward cum (front ++ [cur])) := by
              rw [hlist]
              exact List.mem_map_of_mem _ hc0m
            have hc0le := hres_ge _ hc0mem
            have hbne : (pymax Prod.fst (dfs_max_reward cum (front ++ [cur]) v)
                (vs.map (dfs_max_reward cum (front ++ [cur])))).1 ≠ ⊥ := by
              rw [hval0] at hc0le
              intro hb
              rw [hb] at hc0le
              exact (WithBot.not_coe_le_bot _) hc0le
            have hcbex : ∃ s', ExtPath cb s' := by
              by_contra hno
              have hbot := (IH cb hcbm).1 hno
              rw [← heqb] at hbne
              exact hbne hbot
            rcases (IH cb hcbm).2 hcbex with ⟨sbb, hsbb, hvalb, hmaxb⟩
            refine ⟨cur :: sbb, bridge2 cb hcbm sbb hsbb, ?_, ?_⟩
            · rw [hstep, ← heqb, hvalb,
                show front ++ cur :: sbb = (front ++ [cur]) ++ sbb from by simp]
            · intro s2 hs2
              rcases bridge1 s2 hs2 with ⟨c2, hc2m, s2', hseq2, hext2⟩
              rcases (IH c2 hc2m).2 ⟨s2', hext2⟩ with ⟨sb2, hsb2, hval2, hmax2⟩
              have h1 : cum (((front ++ s2).drop 1).map Node.reward)
                  ≤ cum (((((front ++ [cur]) ++ sb2)).drop 1).map Node.reward) := by
                rw [hseq2,
                  show front ++ cur :: s2' = (front ++ [cur]) ++ s2' from by simp]
                exact hmax2 s2' hext2
              have hc2mem : dfs_max_reward cum (front ++ [cur]) c2
                  ∈ (dfs_max_reward cum (front ++ [cur]) v)
                    :: vs.map (dfs_max_reward cum (front ++ [cur])) := by
                rw [hlist]
                exact List.mem_map_of_mem _ hc2m
              have h2 : ((cum (((((front ++ [cur]) ++ sb2)).drop 1).map Node.reward) : ℚ)
                    : WithBot ℚ)
                  ≤ ((cum (((((front ++ [cur]) ++ sbb)).drop 1).map Node.reward) : ℚ)
                    : WithBot ℚ) := by
                rw [← hval2, ← hvalb, heqb]
                exact hres_ge _ hc2mem
              have h2' := WithBot.coe_le_coe.mp h2
              rw [show front ++ cur :: sbb = (front ++ [cur]) ++ sbb from by simp]
              exact le_trans h1 h2'

/-- C4: with `output_strategy = "max_reward"`, if the final tree has no
root-to-terminal path through resolved nodes then the result has an
absent output path (hence absent `terminal_state` and `trace`) and
`cum_reward = -inf`; otherwise the result's `cum_reward` is the maximum
over all such root-to-terminal paths of `cum_reward` applied to the
rewards of the path's nodes excluding the root.  (On trees produced by
the engine, terminal nodes are never expanded, which is the
`hterm` hypothesis.) -/
theorem max_reward_correct {σ : Type} (cum : List ℚ → ℚ) (root : Node σ)
    (streamed : Option (List (Node σ)) × WithBot ℚ)
    (hterm : ∀ m, SubtreeOf m root → m.is_terminal = true → m.children = none) :
    ((¬ ∃ p, ExtPath root p) →
      search_finalize "max_reward" cum root streamed = some (none, ⊥) ∧
      result_terminal_state (none : Option (List (Node σ))) = none ∧
      result_trace (none : Option (List (Node σ))) = none) ∧
    ((∃ p, ExtPath root p) →
      ∃ pb out, ExtPath root pb ∧
        search_finalize "max_reward" cum root streamed
          = some (some out, ((cum ((pb.drop 1).map Node.reward) : ℚ) : WithBot ℚ)) ∧
        ∀ p2, ExtPath root p2 →
          cum ((p2.drop 1).map Node.reward) ≤ cum ((pb.drop 1).map Node.reward)) := by
  have hspec := dfs_spec cum (sizeOf root) root (le_refl _) [] hterm
  have hfin : search_finalize "max_reward" cum root streamed
      = some (if (dfs_max_reward cum [] root).1 = ⊥ then (none, ⊥)
              else (some (dfs_max_reward cum [] root).2, (dfs_max_reward cum [] root).1)) := by
    simp [search_finalize]
  constructor
  · intro hno
    have hbot := hspec.1 hno
    refine ⟨?_, rfl, rfl⟩
    rw [hfin, if_pos hbot]
  · intro hex
    rcases hspec.2 hex with ⟨pb, hpb, hval, hmax⟩
    have hne : (dfs_max_reward cum [] root).1 ≠ ⊥ := by
      rw [hval]
      exact WithBot.coe_ne_bot
    refine ⟨pb, (dfs_max_reward cum [] root).2, hpb, ?_, ?_⟩
    · rw [hfin, if_neg hne, hval]
      simp
    · intro p2 hp2
      simpa using hmax p2 hp2

/-- A resolved terminal child with reward 2. -/
def C4b : Node Unit := Node.mk (some ()) 2 true 1 0 1 none

/-- A resolved non-terminal root with one terminal child. -/
def C4root : Node Unit := Node.mk (some ()) 0 false 1 0 0 (some [C4b])

theorem max_reward_correct_witness :
    (∀ m, SubtreeOf m C4root → m.is_terminal = true → m.children = none) ∧
    (∃ p, ExtPath C4root p) ∧
    (∃ pb out, ExtPath C4root pb ∧
      search_finalize "max_reward" qsum C4root (none, ⊥)
        = some (some out, ((qsum ((pb.drop 1).map Node.reward) : ℚ) : WithBot ℚ)) ∧
      ∀ p2, ExtPath C4root p2 →
        qsum ((p2.drop 1).map Node.reward) ≤ qsum ((pb.drop 1).map Node.reward)) := by
  have hterm : ∀ m, SubtreeOf m C4root → m.is_terminal = true → m.children = none := by
    intro m hm ht
    cases hm with
    | refl =>
      simp [C4root, Node.is_terminal] at ht
    | child hcm hsub =>
      simp [childrenList, C4root, Node.children] at hcm
      subst hcm
      cases hsub with
      | refl => rfl
      | child hcm2 hsub2 =>
        simp [childrenList, C4b, Node.children] at hcm2
  have hex : ∃ p, ExtPath C4root p :=
    ⟨[C4root, C4b],
      @ExtPath.step Unit C4root C4b [C4b] [C4b] rfl (by simp) rfl (ExtPath.term rfl)⟩
  exact ⟨hterm, hex, (max_reward_correct qsum C4root (none, ⊥) hterm).2 hex⟩
